import Mathlib

/-!
# Verification of the `lrucache` Go package (`src/cache.go`)

Shallow embedding of the LRU cache engine:

* `container/list` ledger elements hold values of dynamic type `any`; we model
  an element's payload as `Option (K × V)`, where `some (k, v)` is a
  `*container[K, V]` record and `none` stands for any non-container value.
  The type assertions `element.Value.(*container[K, V])` become matches on
  this option; their `panic` branches (and the nil dereference of
  `orderList.Back()` on an empty list) are modelled by the operations
  returning `none` (`Option`-valued results).
* The Go map `m map[K]*list.Element` maps a key to the ledger element holding
  that key's record.  Every pointer stored in the map is produced by
  `PushFront(&container{key, value})`, so the element a key maps to is exactly
  the ledger entry carrying that key; we therefore model the map as the list
  of its keys, and dereferencing `m[k]` as locating the first ledger entry
  whose record key is `k`.
* The `atomic.Uint64` statistics counters wrap at 2^64; `Add(1)` is modelled
  as `(n + 1) % 2^64` on `Nat`.
* The sequential semantics below describes whole operations executed under the
  cache's mutex, matching every state an operation can leave behind.  The
  lock-free `Stats` reader is treated separately by a small interleaving
  model further down (`ClearStats` namespace).
-/

namespace LruCache

/-- Payload of a `container/list` element: `some (k, v)` models a
`*container[K, V]` with `key = k`, `value = v`; `none` models any value that
is not a `*container[K, V]`. -/
abbrev LVal (K V : Type) := Option (K × V)

/-- The `stats` struct: three `atomic.Uint64` counters, modelled as naturals
(every mutation is taken `% 2^64`). -/
structure stats where
  hits : Nat
  misses : Nat
  evictions : Nat
  deriving DecidableEq, Repr

/-- The zero-value `stats{}`. -/
def stats.zero : stats := ⟨0, 0, 0⟩

/-- `atomic.Uint64.Add(1)`: wrapping increment. -/
def uadd1 (n : Nat) : Nat := (n + 1) % 2 ^ 64

/-- The `cache[K, V]` struct: capacity (a Go `uint`), the recency ledger
`orderList` (front = head of the list), the index map `m` (modelled by its
key list, see the file header), and the statistics.  The `sync.RWMutex` has
no sequential content and is treated by the interleaving model below. -/
structure cache (K V : Type) where
  capacity : Nat
  orderList : List (LVal K V)
  m : List K
  stats : stats
  deriving DecidableEq, Repr

variable {K V : Type} [DecidableEq K]

/-- Does this ledger element hold the record for key `k`?  (Dereference of a
map pointer `m[k]`, which always targets the entry pushed for `k`.) -/
def keyIs (k : K) : LVal K V → Bool
  | some (k', _) => decide (k' = k)
  | none => false

/-- Keys of the records present in the ledger, in ledger order. -/
def ledgerKeys (l : List (LVal K V)) : List K :=
  l.filterMap (fun e => e.map Prod.fst)

/-- `Get`: on a miss, bump `misses` and return the zero value with
`ok = false`; on a hit, bump `hits`, assert the element payload is a
container (panic otherwise, modelled by `none`), move the element to the
front, and return the stored value with `ok = true`. -/
def cache.Get (c : cache K V) (k : K) : Option ((Option V × Bool) × cache K V) :=
  if k ∈ c.m then
    match c.orderList.find? (keyIs k) with
    | some (some (_, v)) =>
        some ((some v, true),
          { c with
            stats := { c.stats with hits := uadd1 c.stats.hits }
            orderList := some (k, v) :: c.orderList.eraseP (keyIs k) })
    | _ => none
  else
    some ((none, false), { c with stats := { c.stats with misses := uadd1 c.stats.misses } })

/-- The eviction block of `Put` (`if uint(len(c.m)) == c.capacity { ... }`):
when the map is at capacity, read `orderList.Back()` (nil dereference —
`none` — on an empty ledger), assert its payload is a container (panic —
`none` — otherwise), bump `evictions`, delete the back record's key from the
map, and remove the back element from the ledger.  Otherwise the state is
unchanged. -/
def cache.evictIfFull (c : cache K V) : Option (cache K V) :=
  if c.m.length = c.capacity then
    match c.orderList.getLast? with
    | some (some (bk, _)) =>
        some { c with
          stats := { c.stats with evictions := uadd1 c.stats.evictions }
          m := c.m.erase bk
          orderList := c.orderList.dropLast }
    | some none => none
    | none => none
  else
    some c

/-- `Put`: if the key is present, assert its element payload is a container
(unchecked type assertion; failure panics, modelled by `none`), overwrite the
record's value in place and move the element to the front.  If absent, run
the eviction block, then push a fresh container to the front of the ledger
and insert the mapping. -/
def cache.Put (c : cache K V) (k : K) (v : V) : Option (cache K V) :=
  if k ∈ c.m then
    match c.orderList.find? (keyIs k) with
    | some (some _) =>
        some { c with orderList := some (k, v) :: c.orderList.eraseP (keyIs k) }
    | _ => none
  else
    match c.evictIfFull with
    | some c1 =>
        some { c1 with
          m := k :: c1.m
          orderList := some (k, v) :: c1.orderList }
    | none => none

/-- `Len`: `len(c.m)`. -/
def cache.Len (c : cache K V) : Nat := c.m.length

/-- `Delete`: if the key is absent, return with no change; otherwise delete
the mapping and remove its element from the ledger. -/
def cache.Delete (c : cache K V) (k : K) : cache K V :=
  if k ∈ c.m then
    { c with m := c.m.erase k, orderList := c.orderList.eraseP (keyIs k) }
  else
    c

/-- `Stats`: load the three counters (no lock is taken in the source; this is
the value triple a caller receives). -/
def cache.Stats (c : cache K V) : Nat × Nat × Nat :=
  (c.stats.hits, c.stats.misses, c.stats.evictions)

/-- `Clear`: reset the statistics to the zero struct, clear the map, and
re-initialise the ledger. -/
def cache.Clear (c : cache K V) : cache K V :=
  { c with stats := stats.zero, m := [], orderList := [] }

/-- `New`: errors (with the source's message, which the spec names
`InvalidCapacity`) exactly when `capacity == 0`; otherwise returns the empty
cache. -/
def New (K V : Type) (capacity : Nat) : Except String (cache K V) :=
  if capacity = 0 then
    .error "capacity should be greater than 0"
  else
    .ok { capacity := capacity, orderList := [], m := [], stats := stats.zero }

/-- States reachable from a successful `New` by the public operations.
`Get` and `Put` steps require the operation not to panic (the invariant
below shows it never does from a reachable state). -/
inductive Reachable : cache K V → Prop
  | new (capacity : Nat) (c : cache K V) : New K V capacity = .ok c → Reachable c
  | get (c : cache K V) (k : K) (r : Option V × Bool) (c' : cache K V) :
      Reachable c → c.Get k = some (r, c') → Reachable c'
  | put (c : cache K V) (k : K) (v : V) (c' : cache K V) :
      Reachable c → c.Put k v = some c' → Reachable c'
  | delete (c : cache K V) (k : K) : Reachable c → Reachable (c.Delete k)
  | clear (c : cache K V) : Reachable c → Reachable c.Clear

/-- The consistency invariant of the engine: every ledger element holds a
container record, the map keys are exactly the ledger's record keys (as a
multiset — in particular as a set), the map is duplicate-free, the capacity
is positive, and the size is capacity-bounded. -/
structure Inv (c : cache K V) : Prop where
  allCont : ∀ e ∈ c.orderList, e.isSome
  perm : c.m.Perm (ledgerKeys c.orderList)
  nodup : c.m.Nodup
  capPos : 1 ≤ c.capacity
  capBound : c.m.length ≤ c.capacity

/-! ## Interleaving model for `Clear` versus the lock-free `Stats`

`Clear` runs inside `c.lock.Lock()`; its critical section performs, in
program order, the reset `c.stats = stats{}` and then the content clearing
(`clear(c.m)`; `c.orderList.Init()`).  `Stats` acquires no lock at all: it
performs three independent atomic loads (`hits.Load()`, `misses.Load()`,
`evictions.Load()`), so those loads can fall anywhere relative to the
critical section of a concurrent `Clear`.  We model one `Clear` racing one
`Stats` as an arbitrary interleaving (`Merge`) of the two action sequences.
Treating the struct assignment `c.stats = stats{}` as a single atomic write
is generous to the atomicity claim: even so, a torn `Stats` result is
observable. -/

namespace ClearStats

/-- The atomic micro-actions of `Clear` (first two) and `Stats` (last
three). -/
inductive Act
  | resetStats
  | clearContents
  | readHits
  | readMisses
  | readEvictions
  deriving DecidableEq, Repr

/-- Shared cache plus the `Stats` caller's three local results. -/
structure Obs (K V : Type) where
  c : cache K V
  rh : Nat
  rm : Nat
  re : Nat

/-- Effect of one micro-action. -/
def stepAct {K V : Type} (s : Obs K V) : Act → Obs K V
  | .resetStats => { s with c := { s.c with stats := stats.zero } }
  | .clearContents => { s with c := { s.c with m := [], orderList := [] } }
  | .readHits => { s with rh := s.c.stats.hits }
  | .readMisses => { s with rm := s.c.stats.misses }
  | .readEvictions => { s with re := s.c.stats.evictions }

/-- Run a sequence of micro-actions. -/
def runActs {K V : Type} (s : Obs K V) (l : List Act) : Obs K V :=
  l.foldl stepAct s

/-- `Clear`'s writes, in program order. -/
def clearActs : List Act := [.resetStats, .clearContents]

/-- `Stats`'s three loads, in program order. -/
def statsActs : List Act := [.readHits, .readMisses, .readEvictions]

/-- `Merge a b s`: `s` is an interleaving of `a` and `b` that preserves each
sequence's internal order. -/
inductive Merge {α : Type} : List α → List α → List α → Prop
  | nil : Merge [] [] []
  | left {x : α} {xs ys zs : List α} : Merge xs ys zs → Merge (x :: xs) ys (x :: zs)
  | right {y : α} {xs ys zs : List α} : Merge xs ys zs → Merge xs (y :: ys) (y :: zs)

/-- The triple the `Stats` caller returns after the interleaving `seq`,
starting from cache state `c`. -/
def observe {K V : Type} (c : cache K V) (seq : List Act) : Nat × Nat × Nat :=
  let s := runActs ⟨c, 0, 0, 0⟩ seq
  (s.rh, s.rm, s.re)

end ClearStats

/-- Concrete state: the empty capacity-2 cache `New` returns. -/
def cap2empty : cache Nat Nat :=
  { capacity := 2, orderList := [], m := [], stats := ⟨0, 0, 0⟩ }

/-- Concrete state: capacity 2 after `Put 1 10`. -/
def cap2one : cache Nat Nat :=
  { capacity := 2, orderList := [some (1, 10)], m := [1], stats := ⟨0, 0, 0⟩ }

/-- Concrete state: capacity 2, full, after `Put 1 10; Put 2 20`
(front = key 2, back = key 1). -/
def cap2full : cache Nat Nat :=
  { capacity := 2, orderList := [some (2, 20), some (1, 10)], m := [2, 1],
    stats := ⟨0, 0, 0⟩ }

@[simp]
theorem keyIs_some (k k' : K) (v : V) : keyIs k (some (k', v)) = decide (k' = k) := rfl

@[simp]
theorem keyIs_none (k : K) : keyIs (V := V) k none = false := rfl

@[simp]
theorem ledgerKeys_nil : ledgerKeys ([] : List (LVal K V)) = [] := rfl

@[simp]
theorem ledgerKeys_cons_some (k : K) (v : V) (l : List (LVal K V)) :
    ledgerKeys (some (k, v) :: l) = k :: ledgerKeys l := rfl

@[simp]
theorem ledgerKeys_cons_none (l : List (LVal K V)) :
    ledgerKeys ((none : LVal K V) :: l) = ledgerKeys l := rfl

theorem ledgerKeys_append (l l' : List (LVal K V)) :
    ledgerKeys (l ++ l') = ledgerKeys l ++ ledgerKeys l' :=
  List.filterMap_append l l' _

/-- Erasing the ledger element for key `k` erases exactly `k` from the key
list, provided every element is a container. -/
theorem ledgerKeys_eraseP (k : K) (l : List (LVal K V))
    (hc : ∀ e ∈ l, e.isSome) :
    ledgerKeys (l.eraseP (keyIs k)) = (ledgerKeys l).erase k := by
  induction l with
  | nil => simp
  | cons e t ih =>
      obtain ⟨⟨k', v⟩, rfl⟩ := Option.isSome_iff_exists.mp (hc e (by simp))
      have ht : ∀ x ∈ t, x.isSome := fun x hx => hc x (by simp [hx])
      by_cases hk : k' = k
      · subst hk
        simp [List.eraseP_cons, List.erase_cons_head]
      · have hbeq : ¬(k' == k) = true := by simp [hk]
        simp [List.eraseP_cons, hk, List.erase_cons_tail hbeq, ih ht]

/-- In an all-container ledger, a key present among the record keys is found
by `find? (keyIs k)`, and the found element is its container. -/
theorem find?_keyIs_of_mem (k : K) (l : List (LVal K V))
    (hc : ∀ e ∈ l, e.isSome) (hk : k ∈ ledgerKeys l) :
    ∃ v, l.find? (keyIs k) = some (some (k, v)) := by
  induction l with
  | nil => simp [ledgerKeys] at hk
  | cons e t ih =>
      obtain ⟨⟨k', v⟩, rfl⟩ := Option.isSome_iff_exists.mp (hc e (by simp))
      have ht : ∀ x ∈ t, x.isSome := fun x hx => hc x (by simp [hx])
      by_cases hkk : k' = k
      · subst hkk
        exact ⟨v, by simp [List.find?_cons]⟩
      · have hkt : k ∈ ledgerKeys t := by
          simp at hk
          rcases hk with h | h
          · exact absurd h (Ne.symm hkk)
          · exact h
        obtain ⟨w, hw⟩ := ih ht hkt
        exact ⟨w, by simp [List.find?_cons, hkk, hw]⟩

/-- Conversely, whatever `find? (keyIs k)` returns is a container for `k`
that belongs to the list. -/
theorem find?_keyIs_shape (k : K) (l : List (LVal K V)) (e : LVal K V)
    (h : l.find? (keyIs k) = some e) : ∃ v, e = some (k, v) ∧ e ∈ l := by
  have hp := List.find?_some h
  have hm := List.mem_of_find?_eq_some h
  match e with
  | some (k', v) =>
      simp at hp
      exact ⟨v, by simp [hp], by simpa [hp] using hm⟩
  | none => simp [keyIs] at hp

/-- A list is a permutation of the found element consed onto the erased
rest. -/
theorem perm_cons_eraseP {α : Type} (p : α → Bool) (l : List α) (e : α)
    (h : l.find? p = some e) : l.Perm (e :: l.eraseP p) := by
  induction l with
  | nil => simp at h
  | cons a t ih =>
      rw [List.find?_cons] at h
      by_cases hp : p a
      · simp [hp] at h
        subst h
        simp [List.eraseP_cons, hp]
      · simp [hp] at h
        have h2 := ih h
        have he : (a :: t).eraseP p = a :: t.eraseP p := by
          simp [List.eraseP_cons, hp]
        rw [he]
        exact (h2.cons a).trans (List.Perm.swap e a _)

/-- An all-container ledger has as many record keys as elements. -/
theorem ledgerKeys_length (l : List (LVal K V)) (hc : ∀ e ∈ l, e.isSome) :
    (ledgerKeys l).length = l.length := by
  induction l with
  | nil => rfl
  | cons e t ih =>
      obtain ⟨⟨k, v⟩, rfl⟩ := Option.isSome_iff_exists.mp (hc e (by simp))
      have ht : ∀ x ∈ t, x.isSome := fun x hx => hc x (by simp [hx])
      simp [ih ht]

/-- Characterization of `Get` on a hit: under the invariant, a key in the
map is found in the ledger, the hit counter is bumped, and its record moves
to the front. -/
theorem Get_hit (c : cache K V) (k : K) (hc : Inv c) (hk : k ∈ c.m) :
    ∃ v, c.orderList.find? (keyIs k) = some (some (k, v)) ∧
      c.Get k = some ((some v, true),
        { c with
          stats := { c.stats with hits := uadd1 c.stats.hits }
          orderList := some (k, v) :: c.orderList.eraseP (keyIs k) }) := by
  have hkl : k ∈ ledgerKeys c.orderList := hc.perm.mem_iff.mp hk
  obtain ⟨v, hv⟩ := find?_keyIs_of_mem k c.orderList hc.allCont hkl
  exact ⟨v, hv, by simp [cache.Get, hk, hv]⟩

/-- Characterization of `Get` on a miss: the miss counter is bumped and
nothing else changes. -/
theorem Get_miss (c : cache K V) (k : K) (hk : k ∉ c.m) :
    c.Get k = some ((none, false),
      { c with stats := { c.stats with misses := uadd1 c.stats.misses } }) := by
  simp [cache.Get, hk]

/-- Characterization of `Put` on a present key: the record's value is
overwritten and its element moves to the front; map and statistics are
untouched. -/
theorem Put_present (c : cache K V) (k : K) (v : V) (hc : Inv c) (hk : k ∈ c.m) :
    c.Put k v = some
      { c with orderList := some (k, v) :: c.orderList.eraseP (keyIs k) } := by
  have hkl : k ∈ ledgerKeys c.orderList := hc.perm.mem_iff.mp hk
  obtain ⟨w, hw⟩ := find?_keyIs_of_mem k c.orderList hc.allCont hkl
  simp [cache.Put, hk, hw]

/-- The eviction block does nothing when the map is below capacity. -/
theorem evictIfFull_not_full (c : cache K V) (h : c.m.length ≠ c.capacity) :
    c.evictIfFull = some c := by
  simp [cache.evictIfFull, h]

/-- Under the invariant, the eviction block on a full cache removes exactly
the back-of-ledger record: its key leaves the map, the last element leaves
the ledger, and the eviction counter is bumped. -/
theorem evictIfFull_full (c : cache K V) (hc : Inv c) (h : c.m.length = c.capacity) :
    ∃ bk bv, c.orderList.getLast? = some (some (bk, bv)) ∧
      c.evictIfFull = some
        { c with
          stats := { c.stats with evictions := uadd1 c.stats.evictions }
          m := c.m.erase bk
          orderList := c.orderList.dropLast } := by
  have hlen : c.orderList.length = c.m.length := by
    have := hc.perm.length_eq
    rw [this, ledgerKeys_length c.orderList hc.allCont]
  have hne : c.orderList ≠ [] := by
    intro hnil
    rw [hnil] at hlen
    simp at hlen
    have := hc.capPos
    omega
  have hgl := List.getLast?_eq_getLast_of_ne_nil hne
  have hmem := List.getLast_mem hne
  obtain ⟨⟨bk, bv⟩, hb⟩ := Option.isSome_iff_exists.mp (hc.allCont _ hmem)
  refine ⟨bk, bv, ?_, ?_⟩
  · rw [hgl, hb]
  · simp [cache.evictIfFull, h, hgl, hb]

/-- Characterization of `Put` on an absent key: run the eviction block, then
push the fresh record to the front and insert the mapping. -/
theorem Put_absent (c c1 : cache K V) (k : K) (v : V) (hk : k ∉ c.m)
    (h1 : c.evictIfFull = some c1) :
    c.Put k v = some
      { c1 with m := k :: c1.m, orderList := some (k, v) :: c1.orderList } := by
  simp [cache.Put, hk, h1]

/-- `New` establishes the invariant. -/
theorem Inv_new (capacity : Nat) (c : cache K V) (h : New K V capacity = .ok c) :
    Inv c := by
  unfold New at h
  by_cases hcap : capacity = 0
  · simp [hcap] at h
  · simp [hcap] at h
    subst h
    exact ⟨by simp, by simp, by simp, by show 1 ≤ capacity; omega, by simp⟩

/-- `Get` preserves the invariant. -/
theorem Inv_get (c : cache K V) (k : K) (r : Option V × Bool) (c' : cache K V)
    (hc : Inv c) (h : c.Get k = some (r, c')) : Inv c' := by
  by_cases hk : k ∈ c.m
  · obtain ⟨v, hv, hget⟩ := Get_hit c k hc hk
    rw [hget] at h
    injection h with h2
    injection h2 with hr hx
    subst hx
    refine ⟨?_, ?_, hc.nodup, hc.capPos, hc.capBound⟩
    · intro e he
      rcases (by simpa using he : e = some (k, v) ∨ e ∈ c.orderList.eraseP (keyIs k)) with
        rfl | he2
      · rfl
      · exact hc.allCont e ((List.eraseP_sublist _).subset he2)
    · have hkl : k ∈ ledgerKeys c.orderList := hc.perm.mem_iff.mp hk
      show c.m.Perm (ledgerKeys (some (k, v) :: c.orderList.eraseP (keyIs k)))
      rw [ledgerKeys_cons_some, ledgerKeys_eraseP k _ hc.allCont]
      exact hc.perm.trans (List.perm_cons_erase hkl)
  · rw [Get_miss c k hk] at h
    injection h with h2
    injection h2 with hr hx
    subst hx
    exact ⟨hc.allCont, hc.perm, hc.nodup, hc.capPos, hc.capBound⟩

/-- `Put` preserves the invariant. -/
theorem Inv_put (c : cache K V) (k : K) (v : V) (c' : cache K V)
    (hc : Inv c) (h : c.Put k v = some c') : Inv c' := by
  by_cases hk : k ∈ c.m
  · rw [Put_present c k v hc hk] at h
    injection h with hx
    subst hx
    refine ⟨?_, ?_, hc.nodup, hc.capPos, hc.capBound⟩
    · intro e he
      rcases (by simpa using he : e = some (k, v) ∨ e ∈ c.orderList.eraseP (keyIs k)) with
        rfl | he2
      · rfl
      · exact hc.allCont e ((List.eraseP_sublist _).subset he2)
    · have hkl : k ∈ ledgerKeys c.orderList := hc.perm.mem_iff.mp hk
      show c.m.Perm (ledgerKeys (some (k, v) :: c.orderList.eraseP (keyIs k)))
      rw [ledgerKeys_cons_some, ledgerKeys_eraseP k _ hc.allCont]
      exact hc.perm.trans (List.perm_cons_erase hkl)
  · by_cases hfull : c.m.length = c.capacity
    · obtain ⟨bk, bv, hbl, hev⟩ := evictIfFull_full c hc hfull
      rw [Put_absent c _ k v hk hev] at h
      injection h with hx
      subst hx
      have hsplit : c.orderList.dropLast ++ [some (bk, bv)] = c.orderList :=
        List.dropLast_append_getLast? _ hbl
      have hkeys : ledgerKeys c.orderList = ledgerKeys c.orderList.dropLast ++ [bk] := by
        conv_lhs => rw [← hsplit]
        rw [ledgerKeys_append]
        rfl
      have hkn : (ledgerKeys c.orderList).Nodup := hc.perm.nodup_iff.mp hc.nodup
      have hbknot : bk ∉ ledgerKeys c.orderList.dropLast := by
        rw [hkeys] at hkn
        rcases List.nodup_append.mp hkn with ⟨-, -, hdisj⟩
        intro hmm
        exact hdisj hmm (by simp)
      have hbk_m : bk ∈ c.m := hc.perm.mem_iff.mpr (by rw [hkeys]; simp)
      have herase : (ledgerKeys c.orderList).erase bk = ledgerKeys c.orderList.dropLast := by
        rw [hkeys, List.erase_append_right _ hbknot]
        simp
      refine ⟨?_, ?_, ?_, hc.capPos, ?_⟩
      · intro e he
        rcases (by simpa using he :
            e = some (k, v) ∨ e ∈ c.orderList.dropLast) with rfl | he2
        · rfl
        · exact hc.allCont e ((List.dropLast_sublist _).subset he2)
      · show (k :: c.m.erase bk).Perm (ledgerKeys (some (k, v) :: c.orderList.dropLast))
        rw [ledgerKeys_cons_some]
        exact List.Perm.cons k (herase ▸ hc.perm.erase bk)
      · exact List.nodup_cons.mpr
          ⟨fun hmm => hk ((List.erase_sublist bk c.m).subset hmm), hc.nodup.erase bk⟩
      · show (k :: c.m.erase bk).length ≤ c.capacity
        have h1 := List.length_erase_add_one hbk_m
        simp only [List.length_cons]
        omega
    · rw [Put_absent c c k v hk (evictIfFull_not_full c hfull)] at h
      injection h with hx
      subst hx
      refine ⟨?_, List.Perm.cons k hc.perm, List.nodup_cons.mpr ⟨hk, hc.nodup⟩,
        hc.capPos, ?_⟩
      · intro e he
        rcases (by simpa using he :
            e = some (k, v) ∨ e ∈ c.orderList) with rfl | he2
        · rfl
        · exact hc.allCont e he2
      · show (k :: c.m).length ≤ c.capacity
        have := hc.capBound
        simp only [List.length_cons]
        omega

/-- `Delete` preserves the invariant. -/
theorem Inv_delete (c : cache K V) (k : K) (hc : Inv c) : Inv (c.Delete k) := by
  unfold cache.Delete
  split
  · refine ⟨?_, ?_, hc.nodup.erase k, hc.capPos, ?_⟩
    · exact fun e he => hc.allCont e ((List.eraseP_sublist _).subset he)
    · show (c.m.erase k).Perm (ledgerKeys (c.orderList.eraseP (keyIs k)))
      rw [ledgerKeys_eraseP k _ hc.allCont]
      exact hc.perm.erase k
    · exact le_trans (List.erase_sublist k c.m).length_le hc.capBound
  · exact hc

/-- `Clear` preserves the invariant. -/
theorem Inv_clear (c : cache K V) (hc : Inv c) : Inv c.Clear :=
  ⟨by simp [cache.Clear], by simp [cache.Clear], by simp [cache.Clear],
    hc.capPos, by simp [cache.Clear]⟩

/-- Every reachable state satisfies the consistency invariant. -/
theorem reachable_Inv (c : cache K V) (h : Reachable c) : Inv c := by
  induction h with
  | new capacity c h => exact Inv_new capacity c h
  | get c k r c' _ hstep ih => exact Inv_get c k r c' ih hstep
  | put c k v c' _ hstep ih => exact Inv_put c k v c' ih hstep
  | delete c k _ ih => exact Inv_delete c k ih
  | clear c _ ih => exact Inv_clear c ih

/-- Under the invariant, the back-of-ledger record's key is in the map. -/
theorem back_key_mem (c : cache K V) (hc : Inv c) (bk : K) (bv : V)
    (hbl : c.orderList.getLast? = some (some (bk, bv))) : bk ∈ c.m := by
  have hsplit : c.orderList.dropLast ++ [some (bk, bv)] = c.orderList :=
    List.dropLast_append_getLast? _ hbl
  apply hc.perm.mem_iff.mpr
  rw [← hsplit, ledgerKeys_append]
  simp

/-- An interleaving with an exhausted left sequence is the right sequence. -/
theorem Merge_nil_left {α : Type} {xs ys zs : List α} (h : ClearStats.Merge xs ys zs)
    (hx : xs = []) : zs = ys := by
  induction h with
  | nil => rfl
  | left h ih => simp at hx
  | right h ih => rw [ih hx]

/-- An interleaving with an exhausted right sequence is the left sequence. -/
theorem Merge_nil_right {α : Type} {xs ys zs : List α} (h : ClearStats.Merge xs ys zs)
    (hy : ys = []) : zs = xs := by
  induction h with
  | nil => rfl
  | left h ih => rw [ih hy]
  | right h ih => simp at hy

/-- C9: For every cache and every prior sequence of operations, immediately
after `Clear()` a call to `Len()` returns 0 and `Stats()` returns
`hits = 0`, `misses = 0`, `evictions = 0`, regardless of prior activity. -/
theorem spec_C9_clear_resets (c : cache K V) :
    c.Clear.Len = 0 ∧ c.Clear.Stats = (0, 0, 0) :=
  ⟨rfl, rfl⟩

/-- C4: In every reachable state, the set of keys in the index map equals
the set of keys held by records in the recency ledger, and `Len()` equals
both the map's size and the ledger's length. -/
theorem spec_C4_bijection (c : cache K V) (h : Reachable c) :
    (∀ k, k ∈ c.m ↔ k ∈ ledgerKeys c.orderList) ∧
    c.Len = c.m.length ∧ c.Len = c.orderList.length := by
  have hi := reachable_Inv c h
  refine ⟨fun k => hi.perm.mem_iff, rfl, ?_⟩
  show c.m.length = c.orderList.length
  rw [hi.perm.length_eq, ledgerKeys_length _ hi.allCont]

/-- C3: For every cache constructed by `New` with capacity ≥ 1 and every
sequence of operations, `Len() <= capacity` holds in every reachable state;
and the capacity is not exceeded even transiently within a `Put`, because
the state left by the eviction block (which runs before the insertion) is
always strictly below capacity. -/
theorem spec_C3_capacity (c : cache K V) (h : Reachable c) :
    c.Len ≤ c.capacity ∧
    ∀ c1, c.evictIfFull = some c1 → c1.m.length < c.capacity := by
  have hi := reachable_Inv c h
  refine ⟨hi.capBound, fun c1 hc1 => ?_⟩
  by_cases hfull : c.m.length = c.capacity
  · obtain ⟨bk, bv, hbl, hev⟩ := evictIfFull_full c hi hfull
    rw [hev] at hc1
    injection hc1 with hc1
    subst hc1
    have hbm := back_key_mem c hi bk bv hbl
    have hlen := List.length_erase_add_one hbm
    show (c.m.erase bk).length < c.capacity
    have := hi.capPos
    omega
  · rw [evictIfFull_not_full c hfull] at hc1
    injection hc1 with hc1
    subst hc1
    have := hi.capBound
    omega

/-- C8: `New(capacity)` fails (with the message the spec's error taxonomy
calls `InvalidCapacity`) exactly when capacity is 0, and for every capacity
≥ 1 it returns a new empty cache whose `Len()` is 0 and whose hit, miss and
eviction counters are all zero. -/
theorem spec_C8_new (K V : Type) :
    (∀ capacity : Nat, (∃ e, New K V capacity = .error e) ↔ capacity = 0) ∧
    (∀ (capacity : Nat) (c : cache K V), New K V capacity = .ok c →
      c.Len = 0 ∧ c.Stats = (0, 0, 0) ∧ c.capacity = capacity ∧
      c.m = [] ∧ c.orderList = []) := by
  constructor
  · intro capacity
    constructor
    · rintro ⟨e, he⟩
      by_cases hcap : capacity = 0
      · exact hcap
      · simp [New, hcap] at he
    · intro hcap
      exact ⟨"capacity should be greater than 0", by simp [New, hcap]⟩
  · intro capacity c h
    by_cases hcap : capacity = 0
    · simp [New, hcap] at h
    · simp [New, hcap] at h
      subst h
      exact ⟨rfl, rfl, rfl, rfl, rfl⟩

/-- C10: From every reachable state, `Get` and `Put` never take their panic
branches: every ledger element holds a container record (so the type
assertions succeed), `Get` and `Put` always return, and the ledger is
non-empty whenever the map is at capacity (so the eviction path's
`Back()` dereference is never nil). -/
theorem spec_C10_no_panic (c : cache K V) (h : Reachable c) :
    (∀ e ∈ c.orderList, e.isSome) ∧
    (∀ k, (c.Get k).isSome) ∧
    (∀ k v, (c.Put k v).isSome) ∧
    (c.m.length = c.capacity → c.orderList ≠ []) := by
  have hi := reachable_Inv c h
  refine ⟨hi.allCont, ?_, ?_, ?_⟩
  · intro k
    by_cases hk : k ∈ c.m
    · obtain ⟨v, hv, hget⟩ := Get_hit c k hi hk
      rw [hget]
      rfl
    · rw [Get_miss c k hk]
      rfl
  · intro k v
    by_cases hk : k ∈ c.m
    · rw [Put_present c k v hi hk]
      rfl
    · by_cases hfull : c.m.length = c.capacity
      · obtain ⟨bk, bv, hbl, hev⟩ := evictIfFull_full c hi hfull
        rw [Put_absent c _ k v hk hev]
        rfl
      · rw [Put_absent c c k v hk (evictIfFull_not_full c hfull)]
        rfl
  · intro hfull hnil
    have hlen := hi.perm.length_eq
    rw [ledgerKeys_length _ hi.allCont, hnil] at hlen
    simp only [List.length_nil] at hlen
    have := hi.capPos
    omega

/-- C5: For every reachable cache and every key `k`: if `k` is present with
stored value `v` (the value held by `k`'s ledger record), `Get(k)` returns
`(v, true)`, increments the hit counter by one, and moves `k`'s record to
the front of the recency ledger; if `k` is absent, `Get(k)` returns the
zero value with `false`, increments the miss counter by one, and mutates
neither the ledger nor the index; and `Get` never fails. -/
theorem spec_C5_get (c : cache K V) (h : Reachable c) :
    (∀ k v, k ∈ c.m → c.orderList.find? (keyIs k) = some (some (k, v)) →
      c.Get k = some ((some v, true),
        { c with
          stats := { c.stats with hits := uadd1 c.stats.hits }
          orderList := some (k, v) :: c.orderList.eraseP (keyIs k) })) ∧
    (∀ k, k ∉ c.m → c.Get k = some ((none, false),
      { c with stats := { c.stats with misses := uadd1 c.stats.misses } })) ∧
    (∀ k, (c.Get k).isSome) := by
  have hi := reachable_Inv c h
  refine ⟨?_, fun k hk => Get_miss c k hk, ?_⟩
  · intro k v hk hfind
    obtain ⟨w, hw, hget⟩ := Get_hit c k hi hk
    rw [hw] at hfind
    simp only [Option.some_inj, Prod.mk.injEq] at hfind
    rcases hfind with ⟨-, rfl⟩
    exact hget
  · intro k
    by_cases hk : k ∈ c.m
    · obtain ⟨w, hw, hget⟩ := Get_hit c k hi hk
      rw [hget]
      rfl
    · rw [Get_miss c k hk]
      rfl

/-- C6: For every reachable cache in which key `k` is already present,
`Put(k, v)` succeeds and overwrites the record's stored value in place with
`v`, moving the record to the front of the ledger, while the index, `Len()`,
and the hit, miss and eviction counters are all unchanged. -/
theorem spec_C6_put_update (c : cache K V) (h : Reachable c) (k : K) (v : V)
    (hk : k ∈ c.m) :
    ∃ c', c.Put k v = some c' ∧
      c'.orderList = some (k, v) :: c.orderList.eraseP (keyIs k) ∧
      c'.m = c.m ∧ c'.Len = c.Len ∧ c'.stats = c.stats ∧ c'.capacity = c.capacity :=
  ⟨_, Put_present c k v (reachable_Inv c h) hk, rfl, rfl, rfl, rfl, rfl⟩

/-- C7: For every reachable cache, `Delete(k)` never fails: when `k` is
absent it is a no-op leaving the entire state (in particular `Len()`, the
ledger order and the statistics) unchanged; when `k` is present it removes
`k`'s mapping from the index and detaches its record from the ledger, so
`Len()` decreases by exactly one and a subsequent `Get(k)` misses, with no
counter changed by the `Delete` itself. -/
theorem spec_C7_delete (c : cache K V) (h : Reachable c) (k : K) :
    (k ∉ c.m → c.Delete k = c) ∧
    (k ∈ c.m →
      (c.Delete k).Len + 1 = c.Len ∧
      (c.Delete k).m = c.m.erase k ∧
      k ∉ (c.Delete k).m ∧
      (c.Delete k).orderList = c.orderList.eraseP (keyIs k) ∧
      (c.Delete k).stats = c.stats ∧
      (c.Delete k).Get k = some ((none, false),
        { c.Delete k with
          stats := { (c.Delete k).stats with
            misses := uadd1 (c.Delete k).stats.misses } })) := by
  have hi := reachable_Inv c h
  constructor
  · intro hk
    simp [cache.Delete, hk]
  · intro hk
    have hd : c.Delete k =
        { c with m := c.m.erase k, orderList := c.orderList.eraseP (keyIs k) } := by
      simp [cache.Delete, hk]
    have hnotmem : k ∉ (c.Delete k).m := by
      rw [hd]
      exact hi.nodup.not_mem_erase
    refine ⟨?_, by rw [hd], hnotmem, by rw [hd], by rw [hd],
      Get_miss (c.Delete k) k hnotmem⟩
    rw [hd]
    exact List.length_erase_add_one hk

/-- The empty capacity-2 cache is reachable (`New 2`). -/
theorem cap2empty_reachable : Reachable cap2empty :=
  Reachable.new 2 cap2empty rfl

/-- `cap2one` is reachable (`New 2; Put 1 10`). -/
theorem cap2one_reachable : Reachable cap2one :=
  Reachable.put cap2empty 1 10 cap2one cap2empty_reachable (by decide)

/-- `cap2full` is reachable (`New 2; Put 1 10; Put 2 20`). -/
theorem cap2full_reachable : Reachable cap2full :=
  Reachable.put cap2one 2 20 cap2full cap2one_reachable (by decide)

/-- C2 counterexample: capacity 1; after `Put 1 10`, a `Get 1` touches
key 1, yet the immediately following `Put 2 20` — the next eviction —
evicts key 1.  The claim's final clause ("a Get on an entry makes that
entry ineligible for the next eviction") is therefore false as stated. -/
theorem spec_C2_counterexample :
    Reachable (⟨1, [some (1, 10)], [1], ⟨0, 0, 0⟩⟩ : cache Nat Nat) ∧
    cache.Get (⟨1, [some (1, 10)], [1], ⟨0, 0, 0⟩⟩ : cache Nat Nat) 1 =
      some ((some 10, true), (⟨1, [some (1, 10)], [1], ⟨1, 0, 0⟩⟩ : cache Nat Nat)) ∧
    cache.Put (⟨1, [some (1, 10)], [1], ⟨1, 0, 0⟩⟩ : cache Nat Nat) 2 20 =
      some (⟨1, [some (2, 20)], [2], ⟨1, 0, 1⟩⟩ : cache Nat Nat) ∧
    (1 : Nat) ∉ (⟨1, [some (2, 20)], [2], ⟨1, 0, 1⟩⟩ : cache Nat Nat).m := by
  refine ⟨?_, by decide, by decide, by decide⟩
  exact Reachable.put (⟨1, [], [], ⟨0, 0, 0⟩⟩ : cache Nat Nat)
    1 10 _ (Reachable.new 1 _ rfl) (by decide)

/-- C2 (amended): for every reachable full cache, `Put` of an absent key
evicts exactly the record at the back of the recency ledger — removing its
mapping from the index, detaching it from the ledger, and incrementing the
eviction counter — before inserting the new record at the front; and a `Get`
on an entry makes that entry ineligible for an eviction triggered by the
immediately following operation, provided the cache then holds at least two
entries (with a single resident entry — e.g. capacity 1 — the freshly
`Get`-touched entry is itself the back of the ledger and is evicted, as the
counterexample shows). -/
theorem spec_C2_eviction {K V : Type} [DecidableEq K] :
    (∀ (c : cache K V) (k : K) (v : V), Reachable c → k ∉ c.m →
      c.m.length = c.capacity →
      ∃ (bk : K) (bv : V) (c' : cache K V),
        c.orderList.getLast? = some (some (bk, bv)) ∧
        c.Put k v = some c' ∧
        c'.orderList = some (k, v) :: c.orderList.dropLast ∧
        c'.m = k :: c.m.erase bk ∧
        bk ∈ c.m ∧ bk ∉ c'.m ∧
        c'.stats.evictions = uadd1 c.stats.evictions ∧
        c'.stats.hits = c.stats.hits ∧ c'.stats.misses = c.stats.misses) ∧
    (∀ (c c' c'' : cache K V) (k k' : K) (w : V) (r : Option V × Bool),
      Reachable c → c.Get k = some (r, c') → r.2 = true → 2 ≤ c'.m.length →
      k' ∉ c'.m → c'.Put k' w = some c'' → k ∈ c''.m) := by
  constructor
  · intro c k v hre hk hfull
    have hi := reachable_Inv c hre
    obtain ⟨bk, bv, hbl, hev⟩ := evictIfFull_full c hi hfull
    have hput := Put_absent c _ k v hk hev
    have hbm := back_key_mem c hi bk bv hbl
    refine ⟨bk, bv, _, hbl, hput, rfl, rfl, hbm, ?_, rfl, rfl, rfl⟩
    intro hmem
    rcases List.mem_cons.mp hmem with heq | hmem2
    · exact hk (heq ▸ hbm)
    · exact hi.nodup.not_mem_erase hmem2
  · intro c c' c'' k k' w r hre hget hr2 hlen2 hk' hput
    have hre' : Reachable c' := Reachable.get c k r c' hre hget
    have hi := reachable_Inv c hre
    have hi' := reachable_Inv c' hre'
    by_cases hk : k ∈ c.m
    · obtain ⟨v0, hv0, hgeq⟩ := Get_hit c k hi hk
      rw [hgeq] at hget
      injection hget with h2
      injection h2 with hr hx
      have hkc' : k ∈ c'.m := by
        rw [← hx]
        exact hk
      have hol : c'.orderList = some (k, v0) :: c.orderList.eraseP (keyIs k) := by
        rw [← hx]
      by_cases hfull : c'.m.length = c'.capacity
      · obtain ⟨bk, bv, hbl, hev⟩ := evictIfFull_full c' hi' hfull
        rw [Put_absent c' _ k' w hk' hev] at hput
        injection hput with hx2
        subst hx2
        show k ∈ k' :: c'.m.erase bk
        have hbkk : bk ≠ k := by
          intro hbk
          subst hbk
          obtain ⟨ys, hys⟩ := List.getLast?_eq_some_iff.mp hbl
          have hlenl : c'.m.length = c'.orderList.length := by
            rw [hi'.perm.length_eq, ledgerKeys_length _ hi'.allCont]
          rw [hol] at hys
          cases ys with
          | nil =>
              rw [List.nil_append] at hys
              have hE : c.orderList.eraseP (keyIs bk) = [] := by
                have := congrArg List.tail hys
                simpa using this
              rw [hol, hE] at hlenl
              simp at hlenl
              omega
          | cons y ys' =>
              rw [List.cons_append] at hys
              injection hys with hy hE
              have hkn : (ledgerKeys c'.orderList).Nodup :=
                hi'.perm.nodup_iff.mp hi'.nodup
              rw [hol, hE, ledgerKeys_cons_some, ledgerKeys_append] at hkn
              simp [List.nodup_cons] at hkn
        exact List.mem_cons.mpr
          (Or.inr ((hi'.nodup.mem_erase_iff).mpr ⟨Ne.symm hbkk, hkc'⟩))
      · rw [Put_absent c' c' k' w hk' (evictIfFull_not_full c' hfull)] at hput
        injection hput with hx2
        subst hx2
        show k ∈ k' :: c'.m
        exact List.mem_cons.mpr (Or.inr hkc')
    · rw [Get_miss c k hk] at hget
      injection hget with h2
      injection h2 with hr hx
      rw [← hr] at hr2
      simp at hr2

/-- Witness for C2: part (a) at the reachable full capacity-2 cache with
`Put 3 30` (the back record, key 1, is evicted); part (b) at the same cache
after `Get 1` followed by `Put 3 30` (key 2 is evicted, key 1 survives). -/
theorem spec_C2_eviction_witness :
    (∃ (bk : Nat) (bv : Nat) (c' : cache Nat Nat),
      cap2full.orderList.getLast? = some (some (bk, bv)) ∧
      cap2full.Put 3 30 = some c' ∧
      c'.orderList = some (3, 30) :: cap2full.orderList.dropLast ∧
      c'.m = 3 :: cap2full.m.erase bk ∧
      bk ∈ cap2full.m ∧ bk ∉ c'.m ∧
      c'.stats.evictions = uadd1 cap2full.stats.evictions ∧
      c'.stats.hits = cap2full.stats.hits ∧
      c'.stats.misses = cap2full.stats.misses) ∧
    (1 : Nat) ∈ (⟨2, [some (3, 30), some (1, 10)], [3, 1], ⟨1, 0, 1⟩⟩ : cache Nat Nat).m :=
  ⟨spec_C2_eviction.1 cap2full 3 30 cap2full_reachable (by decide) (by decide),
   spec_C2_eviction.2 cap2full
     (⟨2, [some (1, 10), some (2, 20)], [2, 1], ⟨1, 0, 0⟩⟩ : cache Nat Nat)
     (⟨2, [some (3, 30), some (1, 10)], [3, 1], ⟨1, 0, 1⟩⟩ : cache Nat Nat)
     1 3 30 (some 10, true) cap2full_reachable (by decide) rfl (by decide)
     (by decide) (by decide)⟩

/-- C1 counterexample: `Stats()` does not participate in the cache's lock
(`Stats` in `src/cache.go` performs three atomic loads and never touches
`c.lock`), so its loads can interleave with a concurrent `Clear`'s critical
section.  From the reachable state with statistics `(hits, misses,
evictions) = (1, 1, 0)`, the interleaving that reads `hits` before the
reset and the other two counters after it observes `(1, 0, 0)` — an
intermediate mixture equal neither to the pre-`Clear` statistics `(1, 1, 0)`
nor to the post-`Clear` statistics `(0, 0, 0)`.  This refutes the claim
that no concurrent `Stats` observer can see an intermediate state. -/
theorem spec_C1_counterexample :
    Reachable (⟨1, [some (5, 7)], [5], ⟨1, 1, 0⟩⟩ : cache Nat Nat) ∧
    ClearStats.Merge ClearStats.clearActs ClearStats.statsActs
      [.readHits, .resetStats, .readMisses, .readEvictions, .clearContents] ∧
    ClearStats.observe (⟨1, [some (5, 7)], [5], ⟨1, 1, 0⟩⟩ : cache Nat Nat)
      [.readHits, .resetStats, .readMisses, .readEvictions, .clearContents] =
      (1, 0, 0) ∧
    (⟨1, [some (5, 7)], [5], ⟨1, 1, 0⟩⟩ : cache Nat Nat).Stats = (1, 1, 0) ∧
    ((1, 0, 0) : Nat × Nat × Nat) ≠ (1, 1, 0) ∧
    ((1, 0, 0) : Nat × Nat × Nat) ≠ (0, 0, 0) := by
  refine ⟨?_, .right (.left (.right (.right (.left .nil)))),
    by decide, by decide, by decide, by decide⟩
  exact Reachable.get (⟨1, [some (5, 7)], [5], ⟨1, 0, 0⟩⟩ : cache Nat Nat) 6
    (none, false) _
    (Reachable.get (⟨1, [some (5, 7)], [5], ⟨0, 0, 0⟩⟩ : cache Nat Nat) 5
      (some 7, true) _
      (Reachable.put (⟨1, [], [], ⟨0, 0, 0⟩⟩ : cache Nat Nat) 5 7 _
        (Reachable.new 1 _ rfl) (by decide))
      (by decide))
    (by decide)

/-- C1 (amended): `Clear` resets the statistics and empties the contents
within one critical section, in that program order; but `Stats` does not
acquire the lock and performs three separate atomic loads, so a `Stats`
racing a `Clear` may return a mixed triple.  What does hold: after the race
the cache is exactly the cleared cache, and each individual component the
observer read is either that counter's pre-`Clear` value or its cleared
value 0 (each single load is atomic). -/
theorem spec_C1_clear_stats_race {K V : Type} (c : cache K V)
    (seq : List ClearStats.Act)
    (h : ClearStats.Merge ClearStats.clearActs ClearStats.statsActs seq) :
    ((ClearStats.runActs ⟨c, 0, 0, 0⟩ seq).c = c.Clear) ∧
    ((ClearStats.runActs ⟨c, 0, 0, 0⟩ seq).rh = c.stats.hits ∨
      (ClearStats.runActs ⟨c, 0, 0, 0⟩ seq).rh = 0) ∧
    ((ClearStats.runActs ⟨c, 0, 0, 0⟩ seq).rm = c.stats.misses ∨
      (ClearStats.runActs ⟨c, 0, 0, 0⟩ seq).rm = 0) ∧
    ((ClearStats.runActs ⟨c, 0, 0, 0⟩ seq).re = c.stats.evictions ∨
      (ClearStats.runActs ⟨c, 0, 0, 0⟩ seq).re = 0) := by
  have h' : ClearStats.Merge [ClearStats.Act.resetStats, ClearStats.Act.clearContents]
      [ClearStats.Act.readHits, ClearStats.Act.readMisses, ClearStats.Act.readEvictions]
      seq := h
  cases h' with
  | left h1 =>
      cases h1 with
      | left h2 =>
          have e := Merge_nil_left h2 rfl
          subst e
          simp [ClearStats.runActs, ClearStats.stepAct, cache.Clear, stats.zero]
      | right h2 =>
          cases h2 with
          | left h3 =>
              have e := Merge_nil_left h3 rfl
              subst e
              simp [ClearStats.runActs, ClearStats.stepAct, cache.Clear, stats.zero]
          | right h3 =>
              cases h3 with
              | left h4 =>
                  have e := Merge_nil_left h4 rfl
                  subst e
                  simp [ClearStats.runActs, ClearStats.stepAct, cache.Clear, stats.zero]
              | right h4 =>
                  cases h4 with
                  | left h5 =>
                      have e := Merge_nil_left h5 rfl
                      subst e
                      simp [ClearStats.runActs, ClearStats.stepAct, cache.Clear,
                        stats.zero]
  | right h1 =>
      cases h1 with
      | left h2 =>
          cases h2 with
          | left h3 =>
              have e := Merge_nil_left h3 rfl
              subst e
              simp [ClearStats.runActs, ClearStats.stepAct, cache.Clear, stats.zero]
          | right h3 =>
              cases h3 with
              | left h4 =>
                  have e := Merge_nil_left h4 rfl
                  subst e
                  simp [ClearStats.runActs, ClearStats.stepAct, cache.Clear, stats.zero]
              | right h4 =>
                  cases h4 with
                  | left h5 =>
                      have e := Merge_nil_left h5 rfl
                      subst e
                      simp [ClearStats.runActs, ClearStats.stepAct, cache.Clear,
                        stats.zero]
      | right h2 =>
          cases h2 with
          | left h3 =>
              cases h3 with
              | left h4 =>
                  have e := Merge_nil_left h4 rfl
                  subst e
                  simp [ClearStats.runActs, ClearStats.stepAct, cache.Clear, stats.zero]
              | right h4 =>
                  cases h4 with
                  | left h5 =>
                      have e := Merge_nil_left h5 rfl
                      subst e
                      simp [ClearStats.runActs, ClearStats.stepAct, cache.Clear,
                        stats.zero]
          | right h3 =>
              cases h3 with
              | left h4 =>
                  cases h4 with
                  | left h5 =>
                      have e := Merge_nil_left h5 rfl
                      subst e
                      simp [ClearStats.runActs, ClearStats.stepAct, cache.Clear,
                        stats.zero]

/-- Witness for C1 (amended): the fully sequential interleaving (`Clear`
entirely before `Stats`) at a concrete cache. -/
theorem spec_C1_clear_stats_race_witness :
    ((ClearStats.runActs ⟨cap2full, 0, 0, 0⟩
      [.resetStats, .clearContents, .readHits, .readMisses, .readEvictions]).c =
        cap2full.Clear) ∧
    ((ClearStats.runActs ⟨cap2full, 0, 0, 0⟩
      [.resetStats, .clearContents, .readHits, .readMisses, .readEvictions]).rh =
        cap2full.stats.hits ∨
     (ClearStats.runActs ⟨cap2full, 0, 0, 0⟩
      [.resetStats, .clearContents, .readHits, .readMisses, .readEvictions]).rh = 0) ∧
    ((ClearStats.runActs ⟨cap2full, 0, 0, 0⟩
      [.resetStats, .clearContents, .readHits, .readMisses, .readEvictions]).rm =
        cap2full.stats.misses ∨
     (ClearStats.runActs ⟨cap2full, 0, 0, 0⟩
      [.resetStats, .clearContents, .readHits, .readMisses, .readEvictions]).rm = 0) ∧
    ((ClearStats.runActs ⟨cap2full, 0, 0, 0⟩
      [.resetStats, .clearContents, .readHits, .readMisses, .readEvictions]).re =
        cap2full.stats.evictions ∨
     (ClearStats.runActs ⟨cap2full, 0, 0, 0⟩
      [.resetStats, .clearContents, .readHits, .readMisses, .readEvictions]).re = 0) :=
  spec_C1_clear_stats_race cap2full
    [.resetStats, .clearContents, .readHits, .readMisses, .readEvictions]
    (.left (.left (.right (.right (.right .nil)))))

/-- Witness for C3 at the reachable full capacity-2 cache. -/
theorem spec_C3_capacity_witness :
    cap2full.Len ≤ cap2full.capacity ∧
    (⟨2, [some (2, 20)], [2], ⟨0, 0, 1⟩⟩ : cache Nat Nat).m.length < cap2full.capacity :=
  ⟨(spec_C3_capacity cap2full cap2full_reachable).1,
   (spec_C3_capacity cap2full cap2full_reachable).2
     (⟨2, [some (2, 20)], [2], ⟨0, 0, 1⟩⟩ : cache Nat Nat) (by decide)⟩

/-- Witness for C4 at the reachable full capacity-2 cache. -/
theorem spec_C4_bijection_witness :
    ((2 : Nat) ∈ cap2full.m ↔ (2 : Nat) ∈ ledgerKeys cap2full.orderList) ∧
    cap2full.Len = cap2full.m.length ∧ cap2full.Len = cap2full.orderList.length :=
  ⟨(spec_C4_bijection cap2full cap2full_reachable).1 2,
   (spec_C4_bijection cap2full cap2full_reachable).2.1,
   (spec_C4_bijection cap2full cap2full_reachable).2.2⟩

/-- Witness for C5: a hit on key 1, a miss on key 5, and totality at key 0,
all at the reachable full capacity-2 cache. -/
theorem spec_C5_get_witness :
    cap2full.Get 1 = some ((some 10, true),
      { cap2full with
        stats := { cap2full.stats with hits := uadd1 cap2full.stats.hits }
        orderList := some (1, 10) :: cap2full.orderList.eraseP (keyIs 1) }) ∧
    cap2full.Get 5 = some ((none, false),
      { cap2full with
        stats := { cap2full.stats with misses := uadd1 cap2full.stats.misses } }) ∧
    (cap2full.Get 0).isSome :=
  ⟨(spec_C5_get cap2full cap2full_reachable).1 1 10 (by decide) (by decide),
   (spec_C5_get cap2full cap2full_reachable).2.1 5 (by decide),
   (spec_C5_get cap2full cap2full_reachable).2.2 0⟩

/-- Witness for C6: overwriting resident key 1 at the reachable full
capacity-2 cache. -/
theorem spec_C6_put_update_witness :
    ∃ c', cap2full.Put 1 99 = some c' ∧
      c'.orderList = some (1, 99) :: cap2full.orderList.eraseP (keyIs 1) ∧
      c'.m = cap2full.m ∧ c'.Len = cap2full.Len ∧ c'.stats = cap2full.stats ∧
      c'.capacity = cap2full.capacity :=
  spec_C6_put_update cap2full cap2full_reachable 1 99 (by decide)

/-- Witness for C7: deleting absent key 7 and resident key 1 at the
reachable full capacity-2 cache. -/
theorem spec_C7_delete_witness :
    cap2full.Delete 7 = cap2full ∧
    (cap2full.Delete 1).Len + 1 = cap2full.Len ∧
    (1 : Nat) ∉ (cap2full.Delete 1).m :=
  ⟨(spec_C7_delete cap2full cap2full_reachable 7).1 (by decide),
   ((spec_C7_delete cap2full cap2full_reachable 1).2 (by decide)).1,
   ((spec_C7_delete cap2full cap2full_reachable 1).2 (by decide)).2.2.1⟩

/-- Witness for C8: capacity 0 errors; capacity 2 yields the empty cache. -/
theorem spec_C8_new_witness :
    ((∃ e, New Nat Nat 0 = .error e) ↔ (0 : Nat) = 0) ∧
    cache.Len (⟨2, [], [], ⟨0, 0, 0⟩⟩ : cache Nat Nat) = 0 ∧
    cache.Stats (⟨2, [], [], ⟨0, 0, 0⟩⟩ : cache Nat Nat) = (0, 0, 0) ∧
    (⟨2, [], [], ⟨0, 0, 0⟩⟩ : cache Nat Nat).capacity = 2 ∧
    (⟨2, [], [], ⟨0, 0, 0⟩⟩ : cache Nat Nat).m = [] ∧
    (⟨2, [], [], ⟨0, 0, 0⟩⟩ : cache Nat Nat).orderList = [] :=
  ⟨(spec_C8_new Nat Nat).1 0, (spec_C8_new Nat Nat).2 2 _ rfl⟩

/-- Witness for C10 at the reachable full capacity-2 cache. -/
theorem spec_C10_no_panic_witness :
    (some ((2 : Nat), (20 : Nat))).isSome ∧
    (cap2full.Get 9).isSome ∧
    (cap2full.Put 9 90).isSome ∧
    cap2full.orderList ≠ [] :=
  ⟨(spec_C10_no_panic cap2full cap2full_reachable).1 (some (2, 20)) (by decide),
   (spec_C10_no_panic cap2full cap2full_reachable).2.1 9,
   (spec_C10_no_panic cap2full cap2full_reachable).2.2.1 9 90,
   (spec_C10_no_panic cap2full cap2full_reachable).2.2.2 (by decide)⟩

/-- Witness for C9 at the reachable full capacity-2 cache. -/
theorem spec_C9_clear_resets_witness :
    cap2full.Clear.Len = 0 ∧ cap2full.Clear.Stats = (0, 0, 0) :=
  spec_C9_clear_resets cap2full

end LruCache
